import Mathlib

/-!
Shallow embedding of `cytominer_eval/utils/operation_utils.py`.

The file models the two operations of that module:
* `assign_replicates` over a pandas-style data frame (an integer row index plus
  named columns), including the label-based `.loc` row assignment, column-wise
  `pd.concat` + `reset_index`, the boolean row-minimum, `assign` overwrite
  semantics and the inner merge on row indexes; and
* `compare_distributions` over real-valued samples, with sklearn's
  `StandardScaler` (mean / population standard deviation, zero scale replaced
  by one) and numpy's mean / median reductions.

Machine floats are modelled as real numbers; metadata cell values are strings
and derived replicate flags are booleans.
-/

/-- Cell value of the melted pairwise table: metadata values are strings,
derived replicate columns hold booleans. -/
inductive Val where
  | str (s : String)
  | bool (b : Bool)
deriving DecidableEq

/-- Named column of a data frame: its label and its cell values. -/
abbrev Col := String × List Val

/-- Pandas-style data frame: an integer row index plus named columns.
Well-formed frames have every column exactly as long as the index. -/
structure DF where
  index : List Nat
  cols : List Col
deriving DecidableEq

/-- Lookup of a column by label; pandas resolves a label to the first matching
column. -/
def lookupCols (cols : List Col) (nm : String) : Option (List Val) :=
  (cols.find? (fun c => c.1 == nm)).map (fun c => c.2)

def DF.getCol (d : DF) (nm : String) : Option (List Val) :=
  lookupCols d.cols nm

/-- Membership test used by `x in similarity_melted_df.columns`. -/
def DF.hasCol (d : DF) (nm : String) : Bool :=
  (lookupCols d.cols nm).isSome

/-- Number of rows, `len(df)`. -/
def DF.nrows (d : DF) : Nat := d.index.length

/-- Well-formedness: every column has one cell per index entry. -/
def DF.WF (d : DF) : Prop := ∀ c ∈ d.cols, c.2.length = d.index.length

/-- Modelled from the spec: the Pair-ID Resolver (`set_pair_ids`, a collaborator
outside the verified source) enumerates exactly two pair sides in a stable,
deterministic order, each carrying a suffix string used to build column names as
`base ++ suffix`.  Only the existence of two fixed, distinct suffixes matters to
the Replicate Assigner; we fix representative strings. -/
def sufA : String := "_pair_a"

/-- Modelled from the spec: the suffix of the second pair side. -/
def sufB : String := "_pair_b"

/-- Positions (0-based) at which two columns hold equal values:
`np.where(compare_df.iloc[:, 0] == compare_df.iloc[:, 1])[0]`.  The comparison
is exact equality of cell values, elementwise over aligned positions, and
`np.where` returns the matching positions in increasing order. -/
def eqPositions (v0 v1 : List Val) : List Nat :=
  (List.range (min v0.length v1.length)).filter (fun i => decide (v0[i]? = v1[i]?))

/-- Pandas semantics of `compare_df.loc[labels, col] = True` on a boolean
column: `labels` are interpreted as row labels of the frame's index, every
listed label must be present in the index (otherwise `.loc` raises `KeyError`;
an empty list is fine), and exactly the rows whose label occurs in `labels` are
set to `True`. -/
def setTrueAtLabels (index : List Nat) (labels : List Nat) (base : List Bool) :
    Option (List Bool) :=
  if labels.all (fun l => index.contains l) then
    some ((index.zip base).map (fun p => if labels.contains p.1 then true else p.2))
  else none

/-- Failures surfaced by the pandas operations used in `assign_replicates`:
the failed `assert` on missing suffixed columns (the spec's `SchemaError`), a
`KeyError` from label-based indexing, the `ValueError` of `pd.concat([])`, and
a fallback for dtype errors in the row minimum (unreachable at its call site). -/
inductive PdError where
  | schemaError
  | keyError
  | valueError
  | typeError
deriving DecidableEq

/-- One iteration of the loop body of `assign_replicates` for a grouping field
`f`: assert both suffixed columns exist, project them (`df.loc[:, cols]` copies;
the projection keeps the row index), add an all-`False` boolean column named
`f ++ "_replicate"`, then set it to `True` at the `np.where` positions via
label-based `.loc`. -/
def perField (d : DF) (f : String) : Except PdError DF :=
  let c0 := f ++ sufA
  let c1 := f ++ sufB
  if d.hasCol c0 && d.hasCol c1 then
    let v0 := (d.getCol c0).getD []
    let v1 := (d.getCol c1).getD []
    match setTrueAtLabels d.index (eqPositions v0 v1) (List.replicate d.nrows false) with
    | some bs => .ok ⟨d.index, [(c0, v0), (c1, v1), (f ++ "_replicate", bs.map Val.bool)]⟩
    | none => .error .keyError
  else .error .schemaError

/-- Monadic map over `Except`, the order-preserving, fail-fast loop used to
accumulate the per-field frames. -/
def mapExcept {α β ε : Type} (f : α → Except ε β) : List α → Except ε (List β)
  | [] => .ok []
  | a :: as =>
    match f a with
    | .error e => .error e
    | .ok b =>
      match mapExcept f as with
      | .error e => .error e
      | .ok bs => .ok (b :: bs)

/-- Monadic map over `Option`, used for column lookups that must all succeed. -/
def mapOpt {α β : Type} (f : α → Option β) : List α → Option (List β)
  | [] => some []
  | a :: as =>
    match f a with
    | none => none
    | some b =>
      match mapOpt f as with
      | none => none
      | some bs => some (b :: bs)

/-- Pandas `pd.concat(compare_dfs, axis="columns")`: raises `ValueError` on an
empty list; otherwise stacks the frames' columns side by side.  In
`assign_replicates` every concatenated frame carries the very same index (each
was projected from the same input frame without reordering), so index alignment
is the identity and the result keeps that shared index. -/
def concatCols : List DF → Except PdError DF
  | [] => .error .valueError
  | d :: ds => .ok ⟨d.index, ((d :: ds).map DF.cols).flatten⟩

/-- Pandas `df.reset_index(drop=True)`: replace the index by `0..n-1`. -/
def DF.resetIndex (d : DF) : DF := ⟨List.range d.index.length, d.cols⟩

/-- Key order of the Python dict comprehension
`replicate_col_names = ... for x in replicate_groups`: first-occurrence order
with later duplicates removed. -/
def dedupFirst : List String → List String
  | [] => []
  | x :: xs => x :: (dedupFirst xs).filter (fun y => y != x)

/-- Coercion of a boolean cell to its numeric 0/1 value, as numpy does when it
takes a minimum over boolean data; string cells have no such coercion. -/
def valToNum : Val → Option Nat
  | .bool b => some (cond b 1 0)
  | .str _ => none

/-- Row-wise part of `DataFrame.min(axis="columns")` on boolean columns: the
numeric minimum over the booleans as 0/1, returned as a boolean (nonzero means
`True`).  Rows with non-boolean cells are out of this model's dtype rules and
report a failure; the call site only ever applies it to the freshly built
boolean replicate columns. -/
def rowMin01 (vs : List Val) : Option Val :=
  match mapOpt valToNum vs with
  | some (n :: ns) => some (.bool (ns.foldl Nat.min n != 0))
  | _ => none

/-- Pandas `compare_df.loc[:, names].min(axis="columns")`: for each row
position, the minimum across the named columns (first match per label). -/
def DF.minAxisCols (d : DF) (names : List String) : Except PdError (List Val) :=
  match mapOpt
      (fun i =>
        (mapOpt (fun nm => (lookupCols d.cols nm).bind (fun col => col[i]?)) names).bind
          rowMin01)
      (List.range d.nrows) with
  | some vs => .ok vs
  | none => .error .typeError

/-- Pandas `df.assign(nm equal to vs)`: returns a new frame; a column already
called `nm` is overwritten (pandas documents that re-assigned existing columns
are replaced), otherwise the new column is appended on the right. -/
def DF.assignCol (d : DF) (nm : String) (vs : List Val) : DF :=
  if d.hasCol nm then
    ⟨d.index, d.cols.map (fun c => if c.1 == nm then (nm, vs) else c)⟩
  else ⟨d.index, d.cols ++ [(nm, vs)]⟩

/-- Pandas `df.loc[:, names]`: column projection in the order given (labels may
repeat, duplicating columns); a missing label raises `KeyError`. -/
def DF.selectCols (d : DF) (names : List String) : Except PdError DF :=
  match mapOpt (fun nm => (lookupCols d.cols nm).map (fun vs => (nm, vs))) names with
  | some cs => .ok ⟨d.index, cs⟩
  | none => .error .keyError

/-- Position of the first occurrence of a label in an index. -/
def posOf (l : List Nat) (x : Nat) : Option Nat :=
  match l with
  | [] => none
  | a :: t => if a = x then some 0 else (posOf t x).map (fun j => j + 1)

/-- Pandas `left.merge(right, left_index=True, right_index=True)`: an inner
join on the row indexes (`how="inner"` is the pandas default), keeping left row
order; rows whose label has no partner on the other side are dropped.  The
indexes arising in this program are duplicate-free (the caller's table comes
from the upstream melt step and the right frame has a freshly reset `0..n-1`
index), so each left label joins at most one right row. -/
def mergeMatches (l r : DF) : List (Nat × Nat × Nat) :=
  l.index.enum.filterMap (fun p => (posOf r.index p.2).map (fun j => (p.2, p.1, j)))

def merge (l r : DF) : DF :=
  ⟨(mergeMatches l r).map (fun t => t.1),
    l.cols.map (fun c => (c.1, (mergeMatches l r).filterMap (fun t => c.2[t.2.1]?))) ++
      r.cols.map (fun c => (c.1, (mergeMatches l r).filterMap (fun t => c.2[t.2.2]?)))⟩

/-- Embedding of `assign_replicates(similarity_melted_df, replicate_groups)`:
for each grouping field build the projected frame with its boolean replicate
column; concatenate them column-wise and reset the index; derive
`group_replicate` as the row minimum over the replicate columns; keep only the
replicate columns plus `group_replicate`; and merge the result back onto the
input frame by row index. -/
def assign_replicates (d : DF) (groups : List String) : Except PdError DF :=
  let names := (dedupFirst groups).map (fun f => f ++ "_replicate")
  match mapExcept (perField d) groups with
  | .error e => .error e
  | .ok dfs =>
    match concatCols dfs with
    | .error e => .error e
    | .ok c0 =>
      let c := c0.resetIndex
      match c.minAxisCols names with
      | .error e => .error e
      | .ok minvals =>
        match (c.assignCol "group_replicate" minvals).selectCols
            (names ++ ["group_replicate"]) with
        | .error e => .error e
        | .ok c2 => .ok (merge d c2)

/-! ### Heap-passing model of `assign_replicates`

The frame-effect contract ("the caller's frame is not mutated, the result is a
new object") is about object identity, so we also give the same code a small
explicit object store: a heap of frames addressed by position.  Pandas facts
encoded here: projecting a list of columns with `df.loc[:, cols]` materializes
a fresh frame whose writable storage is not shared with `df` (writes to it do
not propagate back — that is what the `SettingWithCopyWarning` on this code
path is about), while `compare_df.loc[...] = ...` writes to the `compare_df`
object in place; `pd.concat`, `assign`, column projection and `merge` all build
new frames. -/

/-- Object store of live data frames; an object id is a position. -/
abbrev Heap := List DF

/-- Allocate a fresh frame, returning the extended heap and the new id. -/
def halloc (h : Heap) (d : DF) : Heap × Nat := (h ++ [d], h.length)

/-- Overwrite the frame stored at an id (in-place mutation of that object). -/
def hset (h : Heap) (i : Nat) (d : DF) : Heap := h.set i d

/-- Heap-transformer version of the loop body of `assign_replicates`: allocate
the projected copy, then mutate that copy twice (the all-`False` column, then
the label-based `True` assignment). -/
def perFieldH (h : Heap) (src : DF) (f : String) : Except PdError (Heap × Nat) :=
  let c0 := f ++ sufA
  let c1 := f ++ sufB
  if src.hasCol c0 && src.hasCol c1 then
    let v0 := (src.getCol c0).getD []
    let v1 := (src.getCol c1).getD []
    let al := halloc h ⟨src.index, [(c0, v0), (c1, v1)]⟩
    let h2 := hset al.1 al.2
      ⟨src.index,
       [(c0, v0), (c1, v1),
        (f ++ "_replicate", (List.replicate src.nrows false).map Val.bool)]⟩
    match setTrueAtLabels src.index (eqPositions v0 v1) (List.replicate src.nrows false) with
    | some bs =>
      .ok (hset h2 al.2 ⟨src.index, [(c0, v0), (c1, v1), (f ++ "_replicate", bs.map Val.bool)]⟩,
           al.2)
    | none => .error .keyError
  else .error .schemaError

/-- The `for replicate_col in replicate_groups` loop over the heap, collecting
the ids of the per-field `compare_df` objects in order. -/
def loopFieldsH (src : DF) : List String → Heap → Except PdError (Heap × List Nat)
  | [], h => .ok (h, [])
  | f :: fs, h =>
    match perFieldH h src f with
    | .error e => .error e
    | .ok (h1, cid) =>
      match loopFieldsH src fs h1 with
      | .error e => .error e
      | .ok (h2, cids) => .ok (h2, cid :: cids)

/-- Heap-passing embedding of `assign_replicates`: the caller's frame lives at
id `i`; the returned id points at the freshly merged result frame. -/
def assign_replicates_heap (h : Heap) (i : Nat) (groups : List String) :
    Except PdError (Heap × Nat) :=
  match h[i]? with
  | none => .error .keyError
  | some d =>
    let names := (dedupFirst groups).map (fun f => f ++ "_replicate")
    match loopFieldsH d groups h with
    | .error e => .error e
    | .ok (h1, cids) =>
      match mapOpt (fun cid => h1[cid]?) cids with
      | none => .error .keyError
      | some dfs =>
        match concatCols dfs with
        | .error e => .error e
        | .ok c0 =>
          let c := c0.resetIndex
          match c.minAxisCols names with
          | .error e => .error e
          | .ok minvals =>
            match (c.assignCol "group_replicate" minvals).selectCols
                (names ++ ["group_replicate"]) with
            | .error e => .error e
            | .ok c2 => .ok (halloc h1 (merge d c2))

/-! ### Embedding of `compare_distributions`

Machine floats are modelled as real numbers.  The supported-method
enumerations live in the external availability helpers
(`check_compare_distribution_method`, `check_replicate_summary_method`) and are
passed as explicit parameters. -/

/-- Failures of `compare_distributions`: the two `UnsupportedMethodError`
sites (one per validated argument), sklearn's `ValueError` when fitting an
empty sample, and the `UnboundLocalError` of `return scores` when no branch
ever assigned `scores`. -/
inductive CdError where
  | unsupportedMethod (s : String)
  | unsupportedSummary (s : String)
  | valueError
  | unboundLocal
deriving DecidableEq

/-- Result value of `compare_distributions`: the reduced scalar, or — when the
summary dispatch falls through without reducing — the full array of
per-element scores. -/
inductive NpResult where
  | scalar (x : ℝ)
  | arr (xs : List ℝ)

/-- Modelled from the spec: `check_compare_distribution_method` (an external
availability helper, not part of the verified source) validates `method`
against a fixed, externally-defined enumeration of supported comparison
methods, raising `UnsupportedMethodError` for any name outside it.  The
enumeration is the parameter `supported`. -/
def check_compare_distribution_method (supported : List String) (m : String) :
    Except CdError Unit :=
  if m ∈ supported then .ok () else .error (.unsupportedMethod m)

/-- Modelled from the spec: `check_replicate_summary_method` validates
`replicate_summary_method` against its own externally-defined enumeration,
raising `UnsupportedMethodError` for any name outside it. -/
def check_replicate_summary_method (supported : List String) (m : String) :
    Except CdError Unit :=
  if m ∈ supported then .ok () else .error (.unsupportedSummary m)

/-- Arithmetic mean of a sample (`np.mean`). -/
noncomputable def lmean (xs : List ℝ) : ℝ := xs.sum / xs.length

/-- Population variance (`np.var` with `ddof=0`), the variance sklearn's
`StandardScaler.fit` computes. -/
noncomputable def pvar (xs : List ℝ) : ℝ :=
  ((xs.map (fun x => (x - lmean xs) ^ 2)).sum) / xs.length

/-- Population standard deviation, the scale fitted by `StandardScaler`. -/
noncomputable def pstd (xs : List ℝ) : ℝ := Real.sqrt (pvar xs)

/-- Behaviour of sklearn's `_handle_zeros_in_scale`: a fitted scale of exactly
zero is replaced by one, so the transform never divides by zero. -/
noncomputable def handleZeros (x : ℝ) : ℝ := if x = 0 then 1 else x

/-- Fitted state of a `StandardScaler`: `mean_` and `scale_`. -/
structure ScalerState where
  mean_ : ℝ
  scale_ : ℝ

/-- Embedding of `StandardScaler().fit(control_distrib)`: record the control
sample's mean and its (zero-adjusted) population standard deviation; fitting an
empty sample raises a `ValueError`. -/
noncomputable def scalerFit (c : List ℝ) : Except CdError ScalerState :=
  if c = [] then .error .valueError else .ok ⟨lmean c, handleZeros (pstd c)⟩

/-- Embedding of `scaler.transform(target_distrib)`: standardize each element
against the fitted mean and scale. -/
noncomputable def scalerTransform (s : ScalerState) (xs : List ℝ) : List ℝ :=
  xs.map (fun x => (x - s.mean_) / s.scale_)

/-- Sorted copy of a sample, as `np.median` sorts before picking the middle. -/
noncomputable def sortR (xs : List ℝ) : List ℝ :=
  have : DecidableRel (fun a b : ℝ => a ≤ b) := fun _ _ => Classical.propDecidable _
  List.insertionSort (fun a b : ℝ => a ≤ b) xs

/-- Median of a sample (`np.median`): middle element of the sorted sample for
odd length, mean of the two middle elements for even length. -/
noncomputable def npMedian (xs : List ℝ) : ℝ :=
  let s := sortR xs
  if xs.length % 2 = 1 then (s[xs.length / 2]?).getD 0
  else ((s[xs.length / 2 - 1]?).getD 0 + (s[xs.length / 2]?).getD 0) / 2

/-- Embedding of `compare_distributions(target_distrib, control_distrib,
method, replicate_summary_method)`: validate both method names, then for
`"zscore"` fit the scaler on the control, transform the target, and reduce with
the chosen summary; any other validated method leaves `scores` unassigned so
`return scores` raises `UnboundLocalError`. -/
noncomputable def compare_distributions (supM supS : List String)
    (target control : List ℝ) (method rsm : String) : Except CdError NpResult :=
  match check_compare_distribution_method supM method with
  | .error e => .error e
  | .ok _ =>
    match check_replicate_summary_method supS rsm with
    | .error e => .error e
    | .ok _ =>
      if method = "zscore" then
        match scalerFit control with
        | .error e => .error e
        | .ok scaler =>
          let scores := scalerTransform scaler target
          if rsm = "mean" then .ok (.scalar (lmean scores))
          else if rsm = "median" then .ok (.scalar (npMedian scores))
          else .ok (.arr scores)
      else .error .unboundLocal

/-- Per-element z-score of a target value against a control sample, exactly as
the spec words it: subtract the control's mean, divide by the control's
standard deviation. -/
noncomputable def zscoreSpec (c : List ℝ) (t : ℝ) : ℝ := (t - lmean c) / pstd c

/-! ### Statement vocabulary -/

/-- Values of the first-side suffixed column of a grouping field. -/
def vA (d : DF) (f : String) : List Val := (d.getCol (f ++ sufA)).getD []

/-- Values of the second-side suffixed column of a grouping field. -/
def vB (d : DF) (f : String) : List Val := (d.getCol (f ++ sufB)).getD []

/-- Whether the two suffixed values of field `f` coincide at row `i` (exact
equality of cell values, no tolerance). -/
def sidesEqualAt (d : DF) (f : String) (i : Nat) : Bool :=
  decide ((vA d f)[i]? = (vB d f)[i]?)

/-- The boolean replicate column derived for field `f`: one cell per row,
true exactly where the two suffixed values coincide. -/
def eqColF (d : DF) (f : String) : List Val :=
  (List.range d.nrows).map (fun i => Val.bool (sidesEqualAt d f i))

/-- The per-field frame built by one loop iteration on a valid input: the two
projected suffixed columns plus the finished boolean replicate column. -/
def perFrame (d : DF) (f : String) : DF :=
  ⟨d.index, [(f ++ sufA, vA d f), (f ++ sufB, vB d f), (f ++ "_replicate", eqColF d f)]⟩

/-- The column of row-wise logical ANDs over all grouping fields of the
side-equality flags — the spec's reading of `group_replicate`. -/
def groupAndCol (d : DF) (groups : List String) : List Val :=
  (List.range d.nrows).map (fun i => Val.bool (groups.all (fun f => sidesEqualAt d f i)))

/-- The replicate column names in dict-value order. -/
def replNames (groups : List String) : List String :=
  (dedupFirst groups).map (fun f => f ++ "_replicate")

/-- Valid input to `assign_replicates`, per the spec's data model: a
well-formed melted pairwise table as produced by the upstream melt step (rows
indexed positionally `0..n-1`, duplicate-free column labels), a non-empty,
duplicate-free grouping list whose every field has both suffixed columns
present, and derived column names not already taken by the input. -/
def ValidInput (d : DF) (groups : List String) : Prop :=
  d.WF ∧ d.index = List.range d.nrows ∧
    (d.cols.map Prod.fst).Nodup ∧
    groups ≠ [] ∧ groups.Nodup ∧
    (∀ f ∈ groups, d.hasCol (f ++ sufA) = true ∧ d.hasCol (f ++ sufB) = true) ∧
    (∀ f ∈ groups, d.hasCol (f ++ "_replicate") = false) ∧
    d.hasCol "group_replicate" = false

instance decWF (d : DF) : Decidable d.WF := by
  unfold DF.WF
  infer_instance

instance decValidInput (d : DF) (groups : List String) : Decidable (ValidInput d groups) := by
  unfold ValidInput
  infer_instance

/-- Exchange the first-side and second-side suffixed values of field `f` in
every row, leaving all other columns (and all column names) unchanged. -/
def swapSides (d : DF) (f : String) : DF :=
  ⟨d.index,
   d.cols.map (fun c =>
     if c.1 = f ++ sufA then (c.1, vB d f)
     else if c.1 = f ++ sufB then (c.1, vA d f)
     else c)⟩

/-! ### Concrete frames used by witnesses and counterexamples -/

/-- A two-row valid input with two grouping fields: field `g` matches on row 0
only, field `h` matches on both rows. -/
def exDF : DF :=
  ⟨[0, 1],
   [("g_pair_a", [.str "a", .str "a"]), ("g_pair_b", [.str "a", .str "b"]),
    ("h_pair_a", [.str "c", .str "c"]), ("h_pair_b", [.str "c", .str "c"])]⟩

/-- A one-row input whose row label is 5 rather than the positional 0: both
suffixed columns for field `g` are present but hold different values. -/
def exC2 : DF := ⟨[5], [("g_pair_a", [.str "a"]), ("g_pair_b", [.str "b"])]⟩

/-- A one-row input whose row label is 1: field `g` is present and matches,
while field `f` has no suffixed columns at all. -/
def exC3 : DF := ⟨[1], [("g_pair_a", [.str "a"]), ("g_pair_b", [.str "a"])]⟩

/-- A valid one-row input whose first grouping field is literally called
`group`, so its derived replicate column is named `group_replicate`: the
`group` sides match while the `x` sides do not. -/
def exC4 : DF :=
  ⟨[0],
   [("group_pair_a", [.str "a"]), ("group_pair_b", [.str "a"]),
    ("x_pair_a", [.str "p"]), ("x_pair_b", [.str "q"])]⟩

/-- The per-field frame the heap run builds for field `g` of `exDF`. -/
def exCmpG : DF :=
  ⟨[0, 1],
   [("g_pair_a", [.str "a", .str "a"]), ("g_pair_b", [.str "a", .str "b"]),
    ("g_replicate", [.bool true, .bool false])]⟩

/-- The per-field frame the heap run builds for field `h` of `exDF`. -/
def exCmpH : DF :=
  ⟨[0, 1],
   [("h_pair_a", [.str "c", .str "c"]), ("h_pair_b", [.str "c", .str "c"]),
    ("h_replicate", [.bool true, .bool true])]⟩

/-- The extended result frame for `exDF` with grouping fields `g` and `h`. -/
def exResult : DF :=
  ⟨[0, 1],
   [("g_pair_a", [.str "a", .str "a"]), ("g_pair_b", [.str "a", .str "b"]),
    ("h_pair_a", [.str "c", .str "c"]), ("h_pair_b", [.str "c", .str "c"]),
    ("g_replicate", [.bool true, .bool false]),
    ("h_replicate", [.bool true, .bool true]),
    ("group_replicate", [.bool true, .bool false])]⟩

/-! ### Helper lemmas: strings -/

theorem strAppendCancel {f g s : String} (h : f ++ s = g ++ s) : f = g := by
  apply String.ext
  have hd : f.data ++ s.data = g.data ++ s.data := by
    simpa using congrArg String.data h
  exact (List.append_inj' hd rfl).1

theorem strAppendNeLast {f g s t : String} (cs ct : Char)
    (hs : s.data.getLast? = some cs) (ht : t.data.getLast? = some ct)
    (hne : cs ≠ ct) : f ++ s ≠ g ++ t := by
  intro h
  have h2 := congrArg (fun x : String => x.data.getLast?) h
  simp only [String.data_append, List.getLast?_append, hs, ht, Option.or_some] at h2
  exact hne (by simpa using h2)

theorem repl_ne_sufA (f g : String) : f ++ "_replicate" ≠ g ++ sufA :=
  strAppendNeLast 'e' 'a' (by decide) (by decide) (by decide)

theorem repl_ne_sufB (f g : String) : f ++ "_replicate" ≠ g ++ sufB :=
  strAppendNeLast 'e' 'b' (by decide) (by decide) (by decide)

theorem sufA_ne_sufB (f g : String) : f ++ sufA ≠ g ++ sufB :=
  strAppendNeLast 'a' 'b' (by decide) (by decide) (by decide)

theorem repl_inj {f g : String} (h : f ++ "_replicate" = g ++ "_replicate") : f = g :=
  strAppendCancel h

theorem group_replicate_eq : ("group" : String) ++ "_replicate" = "group_replicate" := by
  decide

/-! ### Helper lemmas: column lookup -/

theorem lookupCols_nil (nm : String) : lookupCols [] nm = none := rfl

theorem lookupCols_cons (c : Col) (cs : List Col) (nm : String) :
    lookupCols (c :: cs) nm = if c.1 = nm then some c.2 else lookupCols cs nm := by
  by_cases h : c.1 = nm <;> simp [lookupCols, List.find?_cons_of_pos, List.find?_cons_of_neg, h]

theorem lookupCols_append (cs ds : List Col) (nm : String) :
    lookupCols (cs ++ ds) nm = (lookupCols cs nm).or (lookupCols ds nm) := by
  induction cs with
  | nil => simp [lookupCols]
  | cons c cs ih =>
    by_cases h : c.1 = nm <;> simp [lookupCols_cons, h, ih]

theorem lookupCols_append_right {cs : List Col} {nm : String}
    (h : ∀ c ∈ cs, c.1 ≠ nm) (ds : List Col) :
    lookupCols (cs ++ ds) nm = lookupCols ds nm := by
  rw [lookupCols_append]
  have hn : lookupCols cs nm = none := by
    induction cs with
    | nil => rfl
    | cons c cs ih =>
      rw [lookupCols_cons, if_neg (h c (by simp))]
      exact ih (fun c hc => h c (by simp [hc]))
  simp [hn]

theorem lookupCols_of_mem_nodup {cs : List Col} (hn : (cs.map Prod.fst).Nodup)
    {c : Col} (hm : c ∈ cs) : lookupCols cs c.1 = some c.2 := by
  induction cs with
  | nil => cases hm
  | cons a cs ih =>
    rw [lookupCols_cons]
    rcases List.mem_cons.mp hm with h | h
    · subst h; simp
    · have hne : a.1 ≠ c.1 := by
        intro he
        have : c.1 ∈ cs.map Prod.fst := List.mem_map_of_mem Prod.fst h
        rw [← he] at this
        exact (List.nodup_cons.mp hn).1 this
      rw [if_neg hne]
      exact ih (List.nodup_cons.mp hn).2 h

theorem hasCol_iff {d : DF} {nm : String} :
    d.hasCol nm = true ↔ ∃ v, d.getCol nm = some v := by
  simp [DF.hasCol, DF.getCol, Option.isSome_iff_exists]

theorem getCol_length {d : DF} (hwf : d.WF) {nm : String} {v : List Val}
    (hv : d.getCol nm = some v) : v.length = d.nrows := by
  unfold DF.getCol lookupCols at hv
  rcases hfind : d.cols.find? (fun c => c.1 == nm) with _ | c
  · rw [hfind] at hv; cases hv
  · rw [hfind] at hv
    have hc : c ∈ d.cols := List.mem_of_find?_eq_some hfind
    have := hwf c hc
    simp at hv
    rw [← hv]
    exact this

/-! ### Helper lemmas: monadic maps -/

theorem mapOpt_eq_map {α β : Type} {f : α → Option β} {g : α → β} {l : List α}
    (h : ∀ a ∈ l, f a = some (g a)) : mapOpt f l = some (l.map g) := by
  induction l with
  | nil => rfl
  | cons a as ih =>
    have ha := h a (List.mem_cons_self a as)
    have ihh := ih (fun x hx => h x (List.mem_cons_of_mem a hx))
    simp [mapOpt, ha, ihh]

theorem mapExcept_eq_map {α β ε : Type} {f : α → Except ε β} {g : α → β} {l : List α}
    (h : ∀ a ∈ l, f a = .ok (g a)) : mapExcept f l = .ok (l.map g) := by
  induction l with
  | nil => rfl
  | cons a as ih =>
    have ha := h a (List.mem_cons_self a as)
    have ihh := ih (fun x hx => h x (List.mem_cons_of_mem a hx))
    simp [mapExcept, ha, ihh]

theorem mapExcept_error {α β ε : Type} {f : α → Except ε β} {e : ε} {l : List α}
    (hall : ∀ a ∈ l, f a = .error e ∨ ∃ b, f a = .ok b)
    (hex : ∃ a ∈ l, f a = .error e) : mapExcept f l = .error e := by
  induction l with
  | nil => rcases hex with ⟨a, ha, _⟩; cases ha
  | cons a as ih =>
    rcases hall a (List.mem_cons_self a as) with ha | ⟨b, hb⟩
    · simp [mapExcept, ha]
    · have htail : ∃ x ∈ as, f x = .error e := by
        rcases hex with ⟨x, hx, hxe⟩
        rcases List.mem_cons.mp hx with rfl | hmem
        · rw [hb] at hxe; cases hxe
        · exact ⟨x, hmem, hxe⟩
      have ihh := ih (fun x hx => hall x (List.mem_cons_of_mem a hx)) htail
      simp [mapExcept, hb, ihh]

/-! ### Helper lemmas: the per-field loop body -/

theorem zip_replicate_self {l : List Nat} {b : Bool} :
    l.zip (List.replicate l.length b) = l.map (fun i => (i, b)) := by
  induction l with
  | nil => rfl
  | cons a t ih => simp [List.replicate_succ, ih]

theorem mem_eqPositions {v0 v1 : List Val} {i : Nat} :
    i ∈ eqPositions v0 v1 ↔ i < min v0.length v1.length ∧ v0[i]? = v1[i]? := by
  simp [eqPositions, List.mem_filter, List.mem_range]

theorem vA_length {d : DF} (hwf : d.WF) {f : String} (h : d.hasCol (f ++ sufA) = true) :
    (vA d f).length = d.nrows := by
  obtain ⟨u, hu⟩ := hasCol_iff.mp h
  rw [vA, hu]
  exact getCol_length hwf hu

theorem vB_length {d : DF} (hwf : d.WF) {f : String} (h : d.hasCol (f ++ sufB) = true) :
    (vB d f).length = d.nrows := by
  obtain ⟨u, hu⟩ := hasCol_iff.mp h
  rw [vB, hu]
  exact getCol_length hwf hu

theorem setTrueAtLabels_range {n : Nat} {v0 v1 : List Val}
    (l0 : v0.length = n) (l1 : v1.length = n) :
    setTrueAtLabels (List.range n) (eqPositions v0 v1) (List.replicate n false) =
      some ((List.range n).map (fun i => decide (v0[i]? = v1[i]?))) := by
  unfold setTrueAtLabels
  have hmin : min v0.length v1.length = n := by rw [l0, l1, Nat.min_self]
  have hall : (eqPositions v0 v1).all (fun l => (List.range n).contains l) = true := by
    rw [List.all_eq_true]
    intro l hl
    have hlt : l < n := by
      have := (mem_eqPositions.mp hl).1
      omega
    simp [List.contains, List.elem_iff, List.mem_range, hlt]
  rw [if_pos hall]
  have hzip : (List.range n).zip (List.replicate n false) =
      (List.range n).map (fun i => (i, false)) := by
    have hlen : n = (List.range n).length := by simp
    conv in List.replicate n false => rw [hlen]
    exact zip_replicate_self
  rw [hzip, List.map_map]
  congr 1
  apply List.map_congr_left
  intro i hi
  have hi' : i < n := List.mem_range.mp hi
  show (if (eqPositions v0 v1).contains i then true else false) = decide (v0[i]? = v1[i]?)
  have hc : (eqPositions v0 v1).contains i = decide (v0[i]? = v1[i]?) := by
    rw [Bool.eq_iff_iff]
    simp [List.contains, List.elem_iff, mem_eqPositions, hmin, hi']
  rw [hc]
  cases h : decide (v0[i]? = v1[i]?) <;> simp

theorem perField_ok {d : DF} (hwf : d.WF) (hix : d.index = List.range d.nrows)
    {f : String} (h0 : d.hasCol (f ++ sufA) = true) (h1 : d.hasCol (f ++ sufB) = true) :
    perField d f = .ok (perFrame d f) := by
  have l0 := vA_length hwf h0
  have l1 := vB_length hwf h1
  have hset := setTrueAtLabels_range l0 l1
  have hcond : (d.hasCol (f ++ sufA) && d.hasCol (f ++ sufB)) = true := by
    rw [h0, h1]; rfl
  have hva : (d.getCol (f ++ sufA)).getD [] = vA d f := rfl
  have hvb : (d.getCol (f ++ sufB)).getD [] = vB d f := rfl
  unfold perField
  simp only [hcond, if_true, hva, hvb]
  rw [hix, hset]
  unfold perFrame eqColF sidesEqualAt
  rw [hix]
  simp [Function.comp]

/-! ### Helper lemmas: dict order, overwrite and keyed lookups -/

theorem dedupFirst_nodup {l : List String} (h : l.Nodup) : dedupFirst l = l := by
  induction l with
  | nil => rfl
  | cons x xs ih =>
    have hx : x ∉ xs := (List.nodup_cons.mp h).1
    rw [dedupFirst, ih (List.nodup_cons.mp h).2]
    have : xs.filter (fun y => y != x) = xs := by
      apply List.filter_eq_self.mpr
      intro a ha
      simp only [bne_iff_ne, ne_eq, decide_eq_true_eq]
      intro he
      exact hx (he ▸ ha)
    rw [this]

theorem hasCol_false_forall {d : DF} {nm : String} (h : d.hasCol nm = false) :
    ∀ c ∈ d.cols, c.1 ≠ nm := by
  intro c hc he
  unfold DF.hasCol lookupCols at h
  rcases hf : d.cols.find? (fun c => c.1 == nm) with _ | c'
  · have := List.find?_eq_none.mp hf c hc
    simp [he] at this
  · rw [hf] at h
    simp at h

theorem mapOpt_map {α β γ : Type} (f : β → Option γ) (g : α → β) (l : List α) :
    mapOpt f (l.map g) = mapOpt (fun a => f (g a)) l := by
  induction l with
  | nil => rfl
  | cons a as ih => simp [mapOpt, ih]

theorem lookup_overwrite {cols : List Col} {nm : String} (vs : List Val)
    (h : (lookupCols cols nm).isSome = true) :
    lookupCols (cols.map (fun c => if c.1 == nm then (nm, vs) else c)) nm = some vs := by
  induction cols with
  | nil => simp [lookupCols] at h
  | cons c cs ih =>
    by_cases hc : c.1 = nm
    · simp [lookupCols_cons, hc]
    · have hbeq : (c.1 == nm) = false := by simpa using hc
      rw [lookupCols_cons, if_neg hc] at h
      simp only [List.map_cons]
      rw [show (if (c.1 == nm) = true then ((nm, vs) : Col) else c) = c by simp [hbeq]]
      rw [lookupCols_cons, if_neg hc]
      exact ih h

theorem lookup_overwrite_other {cols : List Col} {nm nm' : String} (vs : List Val)
    (h : nm' ≠ nm) :
    lookupCols (cols.map (fun c => if c.1 == nm then (nm, vs) else c)) nm' =
      lookupCols cols nm' := by
  induction cols with
  | nil => rfl
  | cons c cs ih =>
    by_cases hc : c.1 = nm
    · have hbeq : (c.1 == nm) = true := by simpa using hc
      simp only [List.map_cons]
      rw [show (if (c.1 == nm) = true then ((nm, vs) : Col) else c) = (nm, vs) by simp [hbeq]]
      rw [lookupCols_cons, lookupCols_cons]
      rw [if_neg (fun he : nm = nm' => h he.symm), if_neg (fun he : c.1 = nm' => h (he.symm.trans hc))]
      exact ih
    · have hbeq : (c.1 == nm) = false := by simpa using hc
      simp only [List.map_cons]
      rw [show (if (c.1 == nm) = true then ((nm, vs) : Col) else c) = c by simp [hbeq]]
      rw [lookupCols_cons, lookupCols_cons, ih]

theorem assignCol_getCol_self (d : DF) (nm : String) (vs : List Val) :
    (d.assignCol nm vs).getCol nm = some vs := by
  unfold DF.assignCol
  by_cases h : d.hasCol nm
  · rw [if_pos h]
    exact lookup_overwrite vs h
  · rw [if_neg h]
    show lookupCols (d.cols ++ [(nm, vs)]) nm = some vs
    rw [lookupCols_append]
    have hn : lookupCols d.cols nm = none := by
      rcases hv : lookupCols d.cols nm with _ | v
      · rfl
      · exact absurd (hasCol_iff.mpr ⟨v, hv⟩) h
    simp [hn, lookupCols_cons]

theorem assignCol_getCol_other (d : DF) {nm nm' : String} (vs : List Val)
    (h : nm' ≠ nm) : (d.assignCol nm vs).getCol nm' = d.getCol nm' := by
  unfold DF.assignCol
  by_cases hh : d.hasCol nm
  · rw [if_pos hh]
    exact lookup_overwrite_other vs h
  · rw [if_neg hh]
    show lookupCols (d.cols ++ [(nm, vs)]) nm' = lookupCols d.cols nm'
    rw [lookupCols_append]
    have : lookupCols [(nm, vs)] nm' = none := by
      rw [lookupCols_cons, if_neg (fun he => h he.symm)]
      rfl
    simp [this]

theorem lookup_map_keyed {l : List String} {hfun : String → List Val} {x : String} :
    lookupCols (l.map (fun nm => (nm, hfun nm))) x =
      if x ∈ l then some (hfun x) else none := by
  induction l with
  | nil => rfl
  | cons a as ih =>
    by_cases ha : a = x
    · subst ha
      simp [lookupCols_cons]
    · rw [List.map_cons, lookupCols_cons, if_neg ha, ih]
      by_cases hx : x ∈ as
      · simp [hx, List.mem_cons, ha]
      · have : x ∉ a :: as := by
          intro hmem
          rcases List.mem_cons.mp hmem with he | hmm
          · exact ha he.symm
          · exact hx hmm
        simp [hx, this]

/-! ### Helper lemmas: the concatenated frame and the row minimum -/

theorem lookup_concat_repl {d : DF} {groups : List String} {f : String} (hf : f ∈ groups) :
    lookupCols ((groups.map (fun g => (perFrame d g).cols)).flatten) (f ++ "_replicate") =
      some (eqColF d f) := by
  induction groups with
  | nil => cases hf
  | cons g gs ih =>
    rw [List.map_cons, List.flatten_cons]
    by_cases hgf : g = f
    · subst hgf
      rw [lookupCols_append]
      have hg : lookupCols (perFrame d g).cols (g ++ "_replicate") = some (eqColF d g) := by
        unfold perFrame
        rw [lookupCols_cons, if_neg (Ne.symm (repl_ne_sufA g g))]
        rw [lookupCols_cons, if_neg (Ne.symm (repl_ne_sufB g g))]
        rw [lookupCols_cons, if_pos rfl]
      rw [hg]
      rfl
    · have hf' : f ∈ gs := by
        rcases List.mem_cons.mp hf with he | hm
        · exact absurd he.symm hgf
        · exact hm
      have hforall : ∀ c ∈ (perFrame d g).cols, c.1 ≠ f ++ "_replicate" := by
        intro c hc
        unfold perFrame at hc
        simp only [List.mem_cons, List.not_mem_nil, or_false] at hc
        rcases hc with h1 | h1 | h1 <;> rw [h1]
        · exact Ne.symm (repl_ne_sufA f g)
        · exact Ne.symm (repl_ne_sufB f g)
        · exact fun he => hgf (repl_inj he)
      rw [lookupCols_append_right hforall, ih hf']

theorem all_map_id {α : Type} (l : List α) (p : α → Bool) : (l.map p).all id = l.all p := by
  induction l with
  | nil => rfl
  | cons a t ih => simp [ih]

theorem min_cond (a b : Bool) : Nat.min (cond a 1 0) (cond b 1 0) = cond (a && b) 1 0 := by
  cases a <;> cases b <;> rfl

theorem foldl_min_bools (l : List Bool) (a : Bool) :
    (l.map (fun b => cond b 1 0)).foldl Nat.min (cond a 1 0) =
      cond (l.foldl (fun x y => x && y) a) 1 0 := by
  induction l generalizing a with
  | nil => rfl
  | cons b t ih =>
    rw [List.map_cons, List.foldl_cons, List.foldl_cons, min_cond, ih]

theorem foldl_and_eq_all (l : List Bool) (a : Bool) :
    l.foldl (fun x y => x && y) a = (a && l.all id) := by
  induction l generalizing a with
  | nil => simp
  | cons b t ih =>
    rw [List.foldl_cons, ih, List.all_cons]
    simp [Bool.and_assoc]

theorem rowMin01_bools {bs : List Bool} (h : bs ≠ []) :
    rowMin01 (bs.map Val.bool) = some (.bool (bs.all id)) := by
  unfold rowMin01
  have hm : mapOpt valToNum (bs.map Val.bool) = some (bs.map (fun b => cond b 1 0)) := by
    rw [mapOpt_map]
    exact mapOpt_eq_map (fun a _ => rfl)
  rw [hm]
  cases bs with
  | nil => exact absurd rfl h
  | cons b t =>
    simp only [List.map_cons]
    show some (Val.bool (((t.map (fun b => cond b 1 0)).foldl Nat.min (cond b 1 0)) != 0)) =
      some (Val.bool ((b :: t).all id))
    rw [foldl_min_bools, foldl_and_eq_all]
    have hall : (b :: t).all id = (b && t.all id) := by simp
    rw [hall]
    cases b && t.all id <;> rfl

theorem eqColF_length (d : DF) (f : String) : (eqColF d f).length = d.nrows := by
  simp [eqColF]

theorem groupAndCol_length (d : DF) (groups : List String) :
    (groupAndCol d groups).length = d.nrows := by
  simp [groupAndCol]

theorem eqColF_getElem {d : DF} {f : String} {i : Nat} (hi : i < d.nrows) :
    (eqColF d f)[i]? = some (.bool (sidesEqualAt d f i)) := by
  unfold eqColF
  rw [List.getElem?_map, List.getElem?_range hi]
  rfl

theorem minAxis_concat {d : DF} {groups : List String}
    (hne : groups ≠ []) (hnodup : groups.Nodup) :
    DF.minAxisCols
      ⟨List.range d.nrows, (groups.map (fun g => (perFrame d g).cols)).flatten⟩
      (replNames groups) = .ok (groupAndCol d groups) := by
  have hnames : replNames groups = groups.map (fun f => f ++ "_replicate") := by
    rw [replNames, dedupFirst_nodup hnodup]
  unfold DF.minAxisCols
  have hnr : (DF.mk (List.range d.nrows)
      ((groups.map (fun g => (perFrame d g).cols)).flatten)).nrows = d.nrows := by
    simp [DF.nrows]
  rw [hnr]
  have hrow : ∀ i ∈ List.range d.nrows,
      ((mapOpt
          (fun nm =>
            (lookupCols ((groups.map (fun g => (perFrame d g).cols)).flatten) nm).bind
              (fun col => col[i]?))
          (replNames groups)).bind rowMin01) =
        some (.bool (groups.all (fun f => sidesEqualAt d f i))) := by
    intro i hi
    have hi' : i < d.nrows := List.mem_range.mp hi
    rw [hnames, mapOpt_map]
    have hinner : mapOpt
        (fun f =>
          (lookupCols ((groups.map (fun g => (perFrame d g).cols)).flatten)
            (f ++ "_replicate")).bind (fun col => col[i]?))
        groups = some (groups.map (fun f => Val.bool (sidesEqualAt d f i))) := by
      apply mapOpt_eq_map
      intro f hfm
      rw [lookup_concat_repl hfm]
      show (eqColF d f)[i]? = some (Val.bool (sidesEqualAt d f i))
      exact eqColF_getElem hi'
    rw [hinner]
    show rowMin01 (groups.map (fun f => Val.bool (sidesEqualAt d f i))) =
      some (.bool (groups.all (fun f => sidesEqualAt d f i)))
    rw [show groups.map (fun f => Val.bool (sidesEqualAt d f i)) =
        (groups.map (fun f => sidesEqualAt d f i)).map Val.bool from
      (List.map_map Val.bool (fun f => sidesEqualAt d f i) groups).symm]
    rw [rowMin01_bools (by simpa using hne)]
    have := all_map_id groups (fun f => sidesEqualAt d f i)
    rw [this]
  rw [mapOpt_eq_map hrow]
  rfl

/-! ### Helper lemmas: the inner merge on equal positional indexes -/

theorem posOf_map_succ (l : List Nat) (x : Nat) :
    posOf (l.map Nat.succ) (x + 1) = posOf l x := by
  induction l with
  | nil => rfl
  | cons a t ih =>
    rw [List.map_cons]
    show (if a.succ = x + 1 then some 0
        else (posOf (t.map Nat.succ) (x + 1)).map (fun j => j + 1)) =
      (if a = x then some 0 else (posOf t x).map (fun j => j + 1))
    by_cases h : a = x
    · rw [if_pos (by omega : a.succ = x + 1), if_pos h]
    · rw [if_neg (by omega : ¬a.succ = x + 1), if_neg h, ih]

theorem posOf_range {n i : Nat} (h : i < n) : posOf (List.range n) i = some i := by
  induction n generalizing i with
  | zero => omega
  | succ m ih =>
    rw [List.range_succ_eq_map]
    cases i with
    | zero => rfl
    | succ j =>
      show (if (0 : Nat) = j + 1 then some 0
          else (posOf ((List.range m).map Nat.succ) (j + 1)).map (fun k => k + 1)) =
        some (j + 1)
      rw [if_neg (by omega : ¬(0 : Nat) = j + 1)]
      rw [posOf_map_succ, ih (by omega)]
      rfl

theorem filterMap_eq_map {α β : Type} {f : α → Option β} {g : α → β} {l : List α}
    (h : ∀ a ∈ l, f a = some (g a)) : l.filterMap f = l.map g := by
  induction l with
  | nil => rfl
  | cons a t ih =>
    rw [List.filterMap_cons_some (h a (List.mem_cons_self a t)), List.map_cons,
      ih (fun x hx => h x (List.mem_cons_of_mem a hx))]

theorem range_filterMap_getElem {α : Type} {vs : List α} :
    (List.range vs.length).filterMap (fun i => vs[i]?) = vs := by
  induction vs with
  | nil => rfl
  | cons v t ih =>
    rw [show (v :: t).length = t.length + 1 from rfl, List.range_succ_eq_map]
    rw [List.filterMap_cons_some (show (v :: t)[0]? = some v by simp)]
    rw [List.filterMap_map]
    have hc : ((fun i => (v :: t)[i]?) ∘ Nat.succ) = fun i => t[i]? := by
      funext i
      simp [Function.comp]
    rw [hc, ih]

theorem zip_self_map {α : Type} (l : List α) : l.zip l = l.map (fun a => (a, a)) := by
  induction l with
  | nil => rfl
  | cons a t ih => simp [ih]

theorem enum_range (n : Nat) : (List.range n).enum = (List.range n).map (fun i => (i, i)) := by
  rw [List.enum_eq_zip_range, List.length_range]
  exact zip_self_map _

theorem merge_eq_append {n : Nat} {l r : DF} (hl : l.index = List.range n)
    (hr : r.index = List.range n)
    (hwl : ∀ c ∈ l.cols, c.2.length = n) (hwr : ∀ c ∈ r.cols, c.2.length = n) :
    merge l r = ⟨List.range n, l.cols ++ r.cols⟩ := by
  have hms : mergeMatches l r = (List.range n).map (fun i => (i, i, i)) := by
    unfold mergeMatches
    rw [hl, hr, enum_range, List.filterMap_map]
    apply filterMap_eq_map
    intro i hi
    show (posOf (List.range n) i).map (fun j => (i, i, j)) = some (i, i, i)
    rw [posOf_range (List.mem_range.mp hi)]
    rfl
  have hcols1 : ∀ c ∈ l.cols,
      (c.1, ((List.range n).map (fun i => (i, i, i))).filterMap (fun t => c.2[t.2.1]?)) = c := by
    intro c hc
    rw [List.filterMap_map]
    have hcomp : ((fun t : Nat × Nat × Nat => c.2[t.2.1]?) ∘ fun i => (i, i, i)) =
        fun i => c.2[i]? := rfl
    rw [hcomp, show n = c.2.length from (hwl c hc).symm, range_filterMap_getElem]
  have hcols2 : ∀ c ∈ r.cols,
      (c.1, ((List.range n).map (fun i => (i, i, i))).filterMap (fun t => c.2[t.2.2]?)) = c := by
    intro c hc
    rw [List.filterMap_map]
    have hcomp : ((fun t : Nat × Nat × Nat => c.2[t.2.2]?) ∘ fun i => (i, i, i)) =
        fun i => c.2[i]? := rfl
    rw [hcomp, show n = c.2.length from (hwr c hc).symm, range_filterMap_getElem]
  have hidx : ((List.range n).map (fun i => (i, i, i))).map (fun t : Nat × Nat × Nat => t.1) =
      List.range n := by
    rw [List.map_map]
    have : ((fun t : Nat × Nat × Nat => t.1) ∘ fun i : Nat => (i, i, i)) = fun i : Nat => i := rfl
    rw [this, List.map_id']
  unfold merge
  rw [hms, hidx, List.map_congr_left hcols1, List.map_congr_left hcols2,
    List.map_id', List.map_id']

/-! ### The master characterization of `assign_replicates` on valid inputs -/

theorem assignCol_index (d : DF) (nm : String) (vs : List Val) :
    (d.assignCol nm vs).index = d.index := by
  unfold DF.assignCol
  by_cases h : d.hasCol nm
  · rw [if_pos h]
  · rw [if_neg h]

theorem assign_replicates_spec {d : DF} {groups : List String} (h : ValidInput d groups) :
    ∃ r, assign_replicates d groups = .ok r ∧
      r.index = d.index ∧ r.nrows = d.nrows ∧
      (∀ p ∈ d.cols, r.getCol p.1 = some p.2) ∧
      r.getCol "group_replicate" = some (groupAndCol d groups) ∧
      (∀ f ∈ groups, f ≠ "group" → r.getCol (f ++ "_replicate") = some (eqColF d f)) := by
  obtain ⟨hwf, hix, hcolnd, hne, hnodup, hcols, hfresh, hfreshg⟩ := h
  have hnames : (dedupFirst groups).map (fun f => f ++ "_replicate") =
      groups.map (fun f => f ++ "_replicate") := by
    rw [dedupFirst_nodup hnodup]
  have e1 : mapExcept (perField d) groups = .ok (groups.map (perFrame d)) :=
    mapExcept_eq_map (fun f hf => perField_ok hwf hix (hcols f hf).1 (hcols f hf).2)
  have e2' : ∀ (d0 : DF) (ds : List DF),
      concatCols (d0 :: ds) = .ok ⟨d0.index, ((d0 :: ds).map DF.cols).flatten⟩ :=
    fun _ _ => rfl
  have e2 : concatCols (groups.map (perFrame d)) =
      .ok ⟨d.index, (groups.map (fun g => (perFrame d g).cols)).flatten⟩ := by
    cases hg : groups with
    | nil => exact absurd hg hne
    | cons g0 gs =>
      rw [List.map_cons, e2' (perFrame d g0) (gs.map (perFrame d))]
      rw [← List.map_cons (perFrame d) g0 gs, List.map_map]
      rfl
  have e4 : DF.minAxisCols
      ⟨List.range d.index.length, (groups.map (fun g => (perFrame d g).cols)).flatten⟩
      ((dedupFirst groups).map (fun f => f ++ "_replicate")) = .ok (groupAndCol d groups) := by
    rw [show ((dedupFirst groups).map (fun f => f ++ "_replicate")) = replNames groups from rfl]
    exact minAxis_concat hne hnodup
  have hlook : ∀ f ∈ groups,
      lookupCols ((groups.map (fun g => (perFrame d g).cols)).flatten) (f ++ "_replicate") =
        some (eqColF d f) := fun f hf => lookup_concat_repl hf
  have e5 : ((⟨List.range d.index.length,
        (groups.map (fun g => (perFrame d g).cols)).flatten⟩ : DF).assignCol
          "group_replicate" (groupAndCol d groups)).selectCols
        ((dedupFirst groups).map (fun f => f ++ "_replicate") ++ ["group_replicate"]) =
      .ok ⟨List.range d.index.length,
        (groups.map (fun f => f ++ "_replicate") ++ ["group_replicate"]).map
          (fun nm => (nm, if nm = "group_replicate" then groupAndCol d groups
            else (lookupCols ((groups.map (fun g => (perFrame d g).cols)).flatten) nm).getD []))⟩ := by
    rw [hnames]
    unfold DF.selectCols
    have hpoint : ∀ nm ∈ groups.map (fun f => f ++ "_replicate") ++ ["group_replicate"],
        (lookupCols ((⟨List.range d.index.length,
            (groups.map (fun g => (perFrame d g).cols)).flatten⟩ : DF).assignCol
              "group_replicate" (groupAndCol d groups)).cols nm).map (fun vs => (nm, vs)) =
          some (nm, if nm = "group_replicate" then groupAndCol d groups
            else (lookupCols ((groups.map (fun g => (perFrame d g).cols)).flatten) nm).getD []) := by
      intro nm hnm
      by_cases hg : nm = "group_replicate"
      · subst hg
        have := assignCol_getCol_self
          (⟨List.range d.index.length, (groups.map (fun g => (perFrame d g).cols)).flatten⟩ : DF)
          "group_replicate" (groupAndCol d groups)
        rw [show (lookupCols ((⟨List.range d.index.length,
            (groups.map (fun g => (perFrame d g).cols)).flatten⟩ : DF).assignCol
              "group_replicate" (groupAndCol d groups)).cols "group_replicate") =
            some (groupAndCol d groups) from this]
        rw [if_pos rfl]
        rfl
      · have hmem : nm ∈ groups.map (fun f => f ++ "_replicate") := by
          rcases List.mem_append.mp hnm with hm | hm
          · exact hm
          · simp at hm
            exact absurd hm hg
        obtain ⟨f, hf, hnmf⟩ := List.mem_map.mp hmem
        have hother := assignCol_getCol_other
          (⟨List.range d.index.length, (groups.map (fun g => (perFrame d g).cols)).flatten⟩ : DF)
          (groupAndCol d groups) hg
        rw [show (lookupCols ((⟨List.range d.index.length,
            (groups.map (fun g => (perFrame d g).cols)).flatten⟩ : DF).assignCol
              "group_replicate" (groupAndCol d groups)).cols nm) =
            lookupCols ((groups.map (fun g => (perFrame d g).cols)).flatten) nm from hother]
        have hfne : f ++ "_replicate" ≠ "group_replicate" := by
          rw [hnmf]; exact hg
        rw [← hnmf, hlook f hf, if_neg hfne]
        rfl
    rw [mapOpt_eq_map hpoint]
    rw [show ((⟨List.range d.index.length,
        (groups.map (fun g => (perFrame d g).cols)).flatten⟩ : DF).assignCol
          "group_replicate" (groupAndCol d groups)).index = List.range d.index.length from
      assignCol_index _ _ _]
  have hwr : ∀ c ∈ (groups.map (fun f => f ++ "_replicate") ++ ["group_replicate"]).map
      (fun nm => (nm, if nm = "group_replicate" then groupAndCol d groups
        else (lookupCols ((groups.map (fun g => (perFrame d g).cols)).flatten) nm).getD [])),
      c.2.length = d.nrows := by
    intro c hc
    obtain ⟨nm, hnm, hcnm⟩ := List.mem_map.mp hc
    rw [← hcnm]
    by_cases hg : nm = "group_replicate"
    · simp only [if_pos hg]
      exact groupAndCol_length d groups
    · have hmem : nm ∈ groups.map (fun f => f ++ "_replicate") := by
        rcases List.mem_append.mp hnm with hm | hm
        · exact hm
        · simp at hm
          exact absurd hm hg
      obtain ⟨f, hf, hnmf⟩ := List.mem_map.mp hmem
      simp only [if_neg hg]
      rw [← hnmf, hlook f hf]
      show (eqColF d f).length = d.nrows
      exact eqColF_length d f
  have e6 : merge d ⟨List.range d.index.length,
      (groups.map (fun f => f ++ "_replicate") ++ ["group_replicate"]).map
        (fun nm => (nm, if nm = "group_replicate" then groupAndCol d groups
          else (lookupCols ((groups.map (fun g => (perFrame d g).cols)).flatten) nm).getD []))⟩ =
      ⟨List.range d.nrows, d.cols ++
        (groups.map (fun f => f ++ "_replicate") ++ ["group_replicate"]).map
          (fun nm => (nm, if nm = "group_replicate" then groupAndCol d groups
            else (lookupCols ((groups.map (fun g => (perFrame d g).cols)).flatten) nm).getD []))⟩ :=
    merge_eq_append hix rfl (fun c hc => hwf c hc) hwr
  refine ⟨⟨List.range d.nrows, d.cols ++
      (groups.map (fun f => f ++ "_replicate") ++ ["group_replicate"]).map
        (fun nm => (nm, if nm = "group_replicate" then groupAndCol d groups
          else (lookupCols ((groups.map (fun g => (perFrame d g).cols)).flatten) nm).getD []))⟩,
    ?_, ?_, ?_, ?_, ?_, ?_⟩
  · show assign_replicates d groups = .ok _
    unfold assign_replicates
    simp only [e1, e2, DF.resetIndex, e4, e5, e6]
  · exact hix.symm
  · show (List.range d.nrows).length = d.nrows
    simp
  · intro p hp
    show lookupCols (d.cols ++ _) p.1 = some p.2
    rw [lookupCols_append, lookupCols_of_mem_nodup hcolnd hp]
    rfl
  · show lookupCols (d.cols ++ _) "group_replicate" = some (groupAndCol d groups)
    rw [lookupCols_append_right (hasCol_false_forall hfreshg)]
    rw [lookup_map_keyed]
    rw [if_pos (by simp : ("group_replicate" : String) ∈
      groups.map (fun f => f ++ "_replicate") ++ ["group_replicate"])]
    rw [if_pos rfl]
  · intro f hf hfg
    show lookupCols (d.cols ++ _) (f ++ "_replicate") = some (eqColF d f)
    rw [lookupCols_append_right (hasCol_false_forall (hfresh f hf))]
    rw [lookup_map_keyed]
    have hmem : f ++ "_replicate" ∈ groups.map (fun g => g ++ "_replicate") ++ ["group_replicate"] :=
      List.mem_append.mpr (Or.inl (List.mem_map.mpr ⟨f, hf, rfl⟩))
    rw [if_pos hmem]
    have hng : f ++ "_replicate" ≠ "group_replicate" := by
      intro he
      rw [← group_replicate_eq] at he
      exact hfg (repl_inj he)
    rw [if_neg hng, hlook f hf]
    rfl

/-! ### Helper lemmas: the error paths of `assign_replicates` -/

theorem perField_schemaError {d : DF} {f : String}
    (h : ¬(d.hasCol (f ++ sufA) = true ∧ d.hasCol (f ++ sufB) = true)) :
    perField d f = .error .schemaError := by
  unfold perField
  have hc : (d.hasCol (f ++ sufA) && d.hasCol (f ++ sufB)) = false := by
    cases h0 : d.hasCol (f ++ sufA) <;> cases h1 : d.hasCol (f ++ sufB) <;> simp_all
  simp [hc]

/-! ### Helper lemmas: swapping the two pair sides of one field -/

theorem lookup_map_fst_preserving {g : Col → Col} (hg : ∀ c, (g c).1 = c.1)
    (cols : List Col) (nm : String) :
    lookupCols (cols.map g) nm =
      Option.map (fun c => (g c).2) (cols.find? (fun c => c.1 == nm)) := by
  induction cols with
  | nil => rfl
  | cons c cs ih =>
    by_cases hc : c.1 = nm
    · have hgc : (g c).1 = nm := by rw [hg c, hc]
      rw [List.map_cons, lookupCols_cons, if_pos hgc, List.find?_cons_of_pos _ (by simpa using hc)]
      rfl
    · have hgc : ¬(g c).1 = nm := by rw [hg c]; exact hc
      rw [List.map_cons, lookupCols_cons, if_neg hgc, List.find?_cons_of_neg _ (by simpa using hc)]
      exact ih

theorem swapSides_index (d : DF) (f : String) : (swapSides d f).index = d.index := rfl

theorem swapSides_fst (d : DF) (f : String) (c : Col) :
    ((fun c : Col =>
      if c.1 = f ++ sufA then (c.1, vB d f)
      else if c.1 = f ++ sufB then (c.1, vA d f)
      else c) c).1 = c.1 := by
  show (if c.1 = f ++ sufA then ((c.1, vB d f) : Col)
    else if c.1 = f ++ sufB then (c.1, vA d f) else c).1 = c.1
  by_cases h1 : c.1 = f ++ sufA
  · rw [if_pos h1]
  · rw [if_neg h1]
    by_cases h2 : c.1 = f ++ sufB
    · rw [if_pos h2]
    · rw [if_neg h2]

theorem swapSides_hasCol (d : DF) (f : String) (nm : String) :
    (swapSides d f).hasCol nm = d.hasCol nm := by
  unfold DF.hasCol swapSides
  rw [lookup_map_fst_preserving (swapSides_fst d f)]
  unfold lookupCols
  cases d.cols.find? (fun c => c.1 == nm) <;> rfl

theorem swapSides_getCol_A {d : DF} {f : String} (h : d.hasCol (f ++ sufA) = true) :
    (swapSides d f).getCol (f ++ sufA) = some (vB d f) := by
  obtain ⟨v, hv⟩ := hasCol_iff.mp h
  unfold DF.getCol swapSides
  rw [lookup_map_fst_preserving (swapSides_fst d f)]
  unfold DF.getCol lookupCols at hv
  rcases hf : d.cols.find? (fun c => c.1 == f ++ sufA) with _ | c
  · rw [hf] at hv; cases hv
  · rw [hf] at hv
    have hc1 : c.1 = f ++ sufA := by
      have := List.find?_some hf
      simpa using this
    rw [hf]
    show some ((if c.1 = f ++ sufA then (c.1, vB d f)
      else if c.1 = f ++ sufB then (c.1, vA d f) else c).2) = some (vB d f)
    rw [if_pos hc1]

theorem swapSides_getCol_B {d : DF} {f : String} (h : d.hasCol (f ++ sufB) = true) :
    (swapSides d f).getCol (f ++ sufB) = some (vA d f) := by
  obtain ⟨v, hv⟩ := hasCol_iff.mp h
  unfold DF.getCol swapSides
  rw [lookup_map_fst_preserving (swapSides_fst d f)]
  unfold DF.getCol lookupCols at hv
  rcases hf : d.cols.find? (fun c => c.1 == f ++ sufB) with _ | c
  · rw [hf] at hv; cases hv
  · rw [hf] at hv
    have hc1 : c.1 = f ++ sufB := by
      have := List.find?_some hf
      simpa using this
    rw [hf]
    show some ((if c.1 = f ++ sufA then (c.1, vB d f)
      else if c.1 = f ++ sufB then (c.1, vA d f) else c).2) = some (vA d f)
    rw [if_neg (by rw [hc1]; exact Ne.symm (sufA_ne_sufB f f)), if_pos hc1]

theorem swapSides_getCol_other {d : DF} {f : String} {nm : String}
    (h1 : nm ≠ f ++ sufA) (h2 : nm ≠ f ++ sufB) :
    (swapSides d f).getCol nm = d.getCol nm := by
  unfold DF.getCol swapSides
  rw [lookup_map_fst_preserving (swapSides_fst d f)]
  unfold lookupCols
  rcases hf : d.cols.find? (fun c => c.1 == nm) with _ | c
  · rw [hf]
    rfl
  · rw [hf]
    have hc1 : c.1 = nm := by
      have := List.find?_some hf
      simpa using this
    show some ((if c.1 = f ++ sufA then (c.1, vB d f)
      else if c.1 = f ++ sufB then (c.1, vA d f) else c).2) = some c.2
    rw [if_neg (by rw [hc1]; exact h1), if_neg (by rw [hc1]; exact h2)]

theorem all_congr_mem {α : Type} {l : List α} {p q : α → Bool}
    (h : ∀ a ∈ l, p a = q a) : l.all p = l.all q := by
  induction l with
  | nil => rfl
  | cons a t ih =>
    simp [List.all_cons, h a (List.mem_cons_self a t),
      ih (fun x hx => h x (List.mem_cons_of_mem a hx))]

theorem swapSides_WF {d : DF} (hwf : d.WF) {f : String}
    (hA : d.hasCol (f ++ sufA) = true) (hB : d.hasCol (f ++ sufB) = true) :
    (swapSides d f).WF := by
  intro c' hc'
  obtain ⟨c, hc, hcc⟩ := List.mem_map.mp hc'
  rw [← hcc]
  show (if c.1 = f ++ sufA then ((c.1, vB d f) : Col)
    else if c.1 = f ++ sufB then (c.1, vA d f) else c).2.length = d.index.length
  by_cases h1 : c.1 = f ++ sufA
  · rw [if_pos h1]
    show (vB d f).length = d.index.length
    rw [vB_length hwf hB]
    rfl
  · rw [if_neg h1]
    by_cases h2 : c.1 = f ++ sufB
    · rw [if_pos h2]
      show (vA d f).length = d.index.length
      rw [vA_length hwf hA]
      rfl
    · rw [if_neg h2]
      exact hwf c hc

theorem swapSides_names (d : DF) (f : String) :
    (swapSides d f).cols.map Prod.fst = d.cols.map Prod.fst := by
  show (d.cols.map _).map Prod.fst = d.cols.map Prod.fst
  rw [List.map_map]
  apply List.map_congr_left
  intro c hc
  exact swapSides_fst d f c

theorem swapSides_valid {d : DF} {groups : List String} (h : ValidInput d groups)
    {f : String} (hf : f ∈ groups) : ValidInput (swapSides d f) groups := by
  obtain ⟨hwf, hix, hcolnd, hne, hnodup, hcols, hfresh, hfreshg⟩ := h
  refine ⟨swapSides_WF hwf (hcols f hf).1 (hcols f hf).2, ?_, ?_, hne, hnodup, ?_, ?_, ?_⟩
  · exact hix
  · rw [swapSides_names]
    exact hcolnd
  · intro g hg
    rw [swapSides_hasCol, swapSides_hasCol]
    exact hcols g hg
  · intro g hg
    rw [swapSides_hasCol]
    exact hfresh g hg
  · rw [swapSides_hasCol]
    exact hfreshg

theorem sidesEqualAt_swap {d : DF} {groups : List String} (h : ValidInput d groups)
    {f : String} (hf : f ∈ groups) {g : String} (hg : g ∈ groups) (i : Nat) :
    sidesEqualAt (swapSides d f) g i = sidesEqualAt d g i := by
  obtain ⟨hwf, _, _, _, _, hcols, _, _⟩ := h
  by_cases hgf : g = f
  · subst hgf
    unfold sidesEqualAt vA vB
    rw [swapSides_getCol_A (hcols g hg).1, swapSides_getCol_B (hcols g hg).2]
    show decide ((vB d g)[i]? = (vA d g)[i]?) = _
    unfold vA vB
    simp [eq_comm]
  · have h1 : g ++ sufA ≠ f ++ sufA := fun he => hgf (strAppendCancel he)
    have h2 : g ++ sufA ≠ f ++ sufB := sufA_ne_sufB g f
    have h3 : g ++ sufB ≠ f ++ sufA := Ne.symm (sufA_ne_sufB f g)
    have h4 : g ++ sufB ≠ f ++ sufB := fun he => hgf (strAppendCancel he)
    unfold sidesEqualAt vA vB
    rw [swapSides_getCol_other h1 h2, swapSides_getCol_other h3 h4]

/-! ### Claim theorems: the Replicate Assigner -/

/-- C1: for every valid input table and non-empty grouping list, the derived
`group_replicate` column of the table returned by `assign_replicates` holds, at
each row, the logical AND over all grouping fields of that row's per-field
replicate flag (the side-equality of that field), even though the code computes
it as a row-wise numeric minimum over the boolean columns. -/
theorem c1_group_replicate_is_and {d : DF} {groups : List String}
    (h : ValidInput d groups) :
    ∃ r, assign_replicates d groups = .ok r ∧
      ∃ gr, r.getCol "group_replicate" = some gr ∧
        ∀ i < d.nrows, gr[i]? =
          some (.bool (groups.all (fun f => sidesEqualAt d f i))) := by
  obtain ⟨r, hok, _, _, _, hgr, _⟩ := assign_replicates_spec h
  refine ⟨r, hok, groupAndCol d groups, hgr, ?_⟩
  intro i hi
  unfold groupAndCol
  rw [List.getElem?_map, List.getElem?_range hi]
  rfl

/-- Witness for C1 at the concrete two-row table `exDF` with fields `g`, `h`:
the hypotheses hold and the conclusion follows by the theorem. -/
theorem c1_witness :
    ValidInput exDF ["g", "h"] ∧
      (∃ r, assign_replicates exDF ["g", "h"] = .ok r ∧
        ∃ gr, r.getCol "group_replicate" = some gr ∧
          ∀ i < exDF.nrows, gr[i]? =
            some (.bool ((["g", "h"] : List String).all (fun f => sidesEqualAt exDF f i)))) :=
  ⟨by decide, c1_group_replicate_is_and (by decide)⟩

/-- C2 counterexample: the input `exC2` satisfies the claimed validity
conditions (both suffixed columns for `g` present, non-empty grouping list,
some row index — here the single row is labelled 5), yet the returned table
has 0 rows while the input has 1: the merge on the reset 0-based index drops
every row whose label is not positional. -/
theorem c2_counterexample :
    (assign_replicates exC2 ["g"]).map DF.nrows = Except.ok 0 ∧
      exC2.nrows = 1 ∧ (0 : Nat) ≠ 1 :=
  ⟨rfl, rfl, by decide⟩

/-- C2 amended: for valid inputs whose row index is the default positional
`0..n-1` index produced by the upstream melt step, `assign_replicates` returns
a table with the same number of rows, the same index (hence unchanged row
order), and every original column unchanged — only columns are appended. -/
theorem c2_row_preservation_default_index {d : DF} {groups : List String}
    (h : ValidInput d groups) :
    ∃ r, assign_replicates d groups = .ok r ∧
      r.nrows = d.nrows ∧ r.index = d.index ∧
      (∀ p ∈ d.cols, r.getCol p.1 = some p.2) := by
  obtain ⟨r, hok, hidx, hn, horig, _, _⟩ := assign_replicates_spec h
  exact ⟨r, hok, hn, hidx, horig⟩

/-- Witness for the amended C2 at `exDF`. -/
theorem c2_witness :
    ValidInput exDF ["g", "h"] ∧
      (∃ r, assign_replicates exDF ["g", "h"] = .ok r ∧
        r.nrows = exDF.nrows ∧ r.index = exDF.index ∧
        (∀ p ∈ exDF.cols, r.getCol p.1 = some p.2)) :=
  ⟨by decide, c2_row_preservation_default_index (by decide)⟩

/-- C3 counterexample: on the table `exC3` (row labelled 1 instead of 0, field
`g` present with equal sides, field `fld` entirely missing) the call fails with
a `KeyError` — raised by the label-based `.loc[np.where(...)[0], ...]`
assignment of the earlier field `g` — and not with the claimed `SchemaError`. -/
theorem c3_counterexample :
    assign_replicates exC3 ["g", "fld"] = .error PdError.keyError ∧
      PdError.keyError ≠ PdError.schemaError :=
  ⟨rfl, by decide⟩

/-- C3 amended: for every well-formed input table with the default positional
index and any grouping list in which some field lacks at least one of its two
suffixed columns, `assign_replicates` fails with the `SchemaError` (the failed
assert) and returns no table at all. -/
theorem c3_schema_error_default_index {d : DF} {groups : List String}
    (hwf : d.WF) (hix : d.index = List.range d.nrows)
    (hmiss : ∃ f ∈ groups,
      ¬(d.hasCol (f ++ sufA) = true ∧ d.hasCol (f ++ sufB) = true)) :
    assign_replicates d groups = .error PdError.schemaError := by
  have hm : mapExcept (perField d) groups = .error .schemaError := by
    apply mapExcept_error
    · intro f hfm
      by_cases hc : d.hasCol (f ++ sufA) = true ∧ d.hasCol (f ++ sufB) = true
      · exact Or.inr ⟨perFrame d f, perField_ok hwf hix hc.1 hc.2⟩
      · exact Or.inl (perField_schemaError hc)
    · obtain ⟨f, hfm, hcf⟩ := hmiss
      exact ⟨f, hfm, perField_schemaError hcf⟩
  unfold assign_replicates
  simp only [hm]

/-- Witness for the amended C3: `exDF` with the grouping list
`["g", "missing"]` whose second field has no suffixed columns. -/
theorem c3_witness :
    exDF.WF ∧ exDF.index = List.range exDF.nrows ∧
      (∃ f ∈ (["g", "missing"] : List String),
        ¬(exDF.hasCol (f ++ sufA) = true ∧ exDF.hasCol (f ++ sufB) = true)) ∧
      assign_replicates exDF ["g", "missing"] = .error PdError.schemaError :=
  ⟨by decide, by decide, by decide,
    c3_schema_error_default_index (by decide) (by decide) (by decide)⟩

/-- C4 counterexample: on the valid table `exC4` whose first grouping field is
literally named `group`, the two suffixed `group` values agree on the single
row, yet the derived column named `group_replicate` — which is the replicate
column of the field `group` — comes back false, because
`assign(group_replicate=...)` overwrites it with the row minimum over all
fields (and the `x` sides differ). -/
theorem c4_counterexample :
    ValidInput exC4 ["group", "x"] ∧ sidesEqualAt exC4 "group" 0 = true ∧
      (assign_replicates exC4 ["group", "x"]).toOption.bind
        (fun r => r.getCol ("group" ++ "_replicate")) = some [Val.bool false] :=
  ⟨by decide, by decide, rfl⟩

/-- C4 amended: for every valid input and every grouping field `f` other than
the literal name `group` (whose derived column name collides with the combined
`group_replicate` column and is overwritten by `assign`), the derived boolean
column `f ++ "_replicate"` of the returned table is true at exactly those rows
where the two suffixed values for `f` are equal — exact equality, no
tolerance — and false elsewhere. -/
theorem c4_f_replicate_is_side_equality {d : DF} {groups : List String}
    (h : ValidInput d groups) {f : String} (hf : f ∈ groups) (hfg : f ≠ "group") :
    ∃ r, assign_replicates d groups = .ok r ∧
      ∃ colf, r.getCol (f ++ "_replicate") = some colf ∧
        ∀ i < d.nrows, colf[i]? = some (.bool (sidesEqualAt d f i)) := by
  obtain ⟨r, hok, _, _, _, _, hrepl⟩ := assign_replicates_spec h
  refine ⟨r, hok, eqColF d f, hrepl f hf hfg, ?_⟩
  intro i hi
  unfold eqColF
  rw [List.getElem?_map, List.getElem?_range hi]
  rfl

/-- Witness for the amended C4 at `exDF`, field `g`. -/
theorem c4_witness :
    ValidInput exDF ["g", "h"] ∧ ("g" : String) ∈ (["g", "h"] : List String) ∧
      ("g" : String) ≠ "group" ∧
      (∃ r, assign_replicates exDF ["g", "h"] = .ok r ∧
        ∃ colf, r.getCol ("g" ++ "_replicate") = some colf ∧
          ∀ i < exDF.nrows, colf[i]? = some (.bool (sidesEqualAt exDF "g" i))) :=
  ⟨by decide, by decide, by decide,
    c4_f_replicate_is_side_equality (by decide) (by decide) (by decide)⟩

/-- C8: for every valid input table and grouping field `f`, swapping the values
between the first-side and second-side suffixed columns for `f` in every row
leaves the derived `f ++ "_replicate"` column of the result of
`assign_replicates` unchanged — equality of the two sides is symmetric. -/
theorem c8_swap_preserves_replicate_col {d : DF} {groups : List String}
    (h : ValidInput d groups) {f : String} (hf : f ∈ groups) :
    ∃ r r', assign_replicates d groups = .ok r ∧
      assign_replicates (swapSides d f) groups = .ok r' ∧
      r'.getCol (f ++ "_replicate") = r.getCol (f ++ "_replicate") := by
  obtain ⟨r, hok, _, _, _, hgr, hrepl⟩ := assign_replicates_spec h
  obtain ⟨r', hok', _, _, _, hgr', hrepl'⟩ :=
    assign_replicates_spec (swapSides_valid h hf)
  refine ⟨r, r', hok, hok', ?_⟩
  by_cases hfg : f = "group"
  · subst hfg
    rw [show ("group" : String) ++ "_replicate" = "group_replicate" from group_replicate_eq]
    rw [hgr, hgr']
    congr 1
    unfold groupAndCol
    rw [show (swapSides d "group").nrows = d.nrows from rfl]
    apply List.map_congr_left
    intro i hi
    congr 1
    apply all_congr_mem
    intro g hg
    exact sidesEqualAt_swap h hf hg i
  · rw [hrepl f hf hfg, hrepl' f hf hfg]
    congr 1
    unfold eqColF
    rw [show (swapSides d f).nrows = d.nrows from rfl]
    apply List.map_congr_left
    intro i hi
    exact congrArg Val.bool (sidesEqualAt_swap h hf hf i)

/-- Witness for C8 at `exDF`, field `g`. -/
theorem c8_witness :
    ValidInput exDF ["g", "h"] ∧ ("g" : String) ∈ (["g", "h"] : List String) ∧
      (∃ r r', assign_replicates exDF ["g", "h"] = .ok r ∧
        assign_replicates (swapSides exDF "g") ["g", "h"] = .ok r' ∧
        r'.getCol ("g" ++ "_replicate") = r.getCol ("g" ++ "_replicate")) :=
  ⟨by decide, by decide, c8_swap_preserves_replicate_col (by decide) (by decide)⟩

/-- C9: calling `assign_replicates` with an empty grouping list always raises —
the concatenation of zero per-field frames is `pd.concat([])`, a `ValueError` —
and never returns a table, in particular never the unextended input. -/
theorem c9_empty_groups_error (d : DF) :
    assign_replicates d [] = .error PdError.valueError := rfl

/-! ### Helper lemmas: the heap-passing model -/

theorem set_append_len {α : Type} (l : List α) (x y : α) :
    (l ++ [x]).set l.length y = l ++ [y] := by
  induction l with
  | nil => rfl
  | cons a t ih =>
    show a :: ((t ++ [x]).set t.length y) = a :: (t ++ [y])
    rw [ih]

theorem perFieldH_extends {h : Heap} {src : DF} {f : String} {h1 : Heap} {cid : Nat}
    (he : perFieldH h src f = .ok (h1, cid)) :
    (∃ z, h1 = h ++ [z]) ∧ cid = h.length := by
  by_cases hc : (src.hasCol (f ++ sufA) && src.hasCol (f ++ sufB)) = true
  · rcases hs : setTrueAtLabels src.index
        (eqPositions ((src.getCol (f ++ sufA)).getD []) ((src.getCol (f ++ sufB)).getD []))
        (List.replicate src.nrows false) with _ | bs
    · simp only [perFieldH, halloc, hset, hc, if_true, hs] at he
      exact Except.noConfusion he
    · simp only [perFieldH, halloc, hset, hc, if_true, hs] at he
      rw [set_append_len, set_append_len] at he
      have hpair := Except.ok.inj he
      exact ⟨⟨_, (congrArg Prod.fst hpair).symm⟩, (congrArg Prod.snd hpair).symm⟩
  · simp only [perFieldH, halloc, hset, hc, Bool.false_eq_true, if_false] at he
    exact Except.noConfusion he

theorem loopFieldsH_extends {src : DF} :
    ∀ (fs : List String) {h h2 : Heap} {cids : List Nat},
      loopFieldsH src fs h = .ok (h2, cids) → ∃ ext, h2 = h ++ ext := by
  intro fs
  induction fs with
  | nil =>
    intro h h2 cids he
    have hh : h = h2 := congrArg Prod.fst (Except.ok.inj he)
    exact ⟨[], by rw [← hh]; simp⟩
  | cons f fs ih =>
    intro h h2 cids he
    unfold loopFieldsH at he
    rcases hp : perFieldH h src f with e | ⟨h1, cid⟩
    · simp only [hp] at he
      exact Except.noConfusion he
    · simp only [hp] at he
      rcases hl : loopFieldsH src fs h1 with e | ⟨h3, cids'⟩
      · simp only [hl] at he
        exact Except.noConfusion he
      · simp only [hl] at he
        obtain ⟨⟨z, hz⟩, _⟩ := perFieldH_extends hp
        obtain ⟨ext, hext⟩ := ih hl
        have h23 : h3 = h2 := congrArg Prod.fst (Except.ok.inj he)
        exact ⟨[z] ++ ext, by rw [← h23, hext, hz, List.append_assoc]⟩

/-- C7: in the heap-passing model, `assign_replicates` never mutates the
caller's input frame — every column assignment happens on the freshly copied
per-field frames — and the returned table is a new object, allocated above the
old heap top and in particular distinct from the input object. -/
theorem c7_input_not_mutated {h : Heap} {i : Nat} {groups : List String}
    {h' : Heap} {rid : Nat} (hi : i < h.length)
    (hrun : assign_replicates_heap h i groups = .ok (h', rid)) :
    h'[i]? = h[i]? ∧ h.length ≤ rid ∧ rid ≠ i := by
  unfold assign_replicates_heap at hrun
  rcases hd : h[i]? with _ | d
  · simp only [hd] at hrun
    exact Except.noConfusion hrun
  · simp only [hd] at hrun
    rcases hl : loopFieldsH d groups h with e | ⟨h1, cids⟩
    · simp only [hl] at hrun
      exact Except.noConfusion hrun
    · simp only [hl] at hrun
      rcases hm : mapOpt (fun cid => h1[cid]?) cids with _ | dfs
      · simp only [hm] at hrun
        exact Except.noConfusion hrun
      · simp only [hm] at hrun
        rcases hcc : concatCols dfs with e | c0
        · simp only [hcc] at hrun
          exact Except.noConfusion hrun
        · simp only [hcc] at hrun
          rcases hmin : (c0.resetIndex).minAxisCols
              ((dedupFirst groups).map (fun f => f ++ "_replicate")) with e | minvals
          · simp only [hmin] at hrun
            exact Except.noConfusion hrun
          · simp only [hmin] at hrun
            rcases hsel : ((c0.resetIndex).assignCol "group_replicate" minvals).selectCols
                ((dedupFirst groups).map (fun f => f ++ "_replicate") ++
                  ["group_replicate"]) with e | c2
            · simp only [hsel] at hrun
              exact Except.noConfusion hrun
            · simp only [hsel, halloc] at hrun
              obtain ⟨ext, hext⟩ := loopFieldsH_extends groups hl
              have hpair := Except.ok.inj hrun
              have hh' : h1 ++ [merge d c2] = h' := congrArg Prod.fst hpair
              have hrid : h1.length = rid := congrArg Prod.snd hpair
              have hlen : h.length ≤ h1.length := by
                rw [hext]
                simp
              refine ⟨?_, by omega, by omega⟩
              rw [← hh']
              rw [List.getElem?_append_left (by omega : i < h1.length)]
              rw [hext, List.getElem?_append_left hi]
              exact hd

/-- Witness for C7: running the heap model on a singleton heap holding `exDF`
leaves the frame at id 0 untouched and returns the fresh id 3, which holds the
extended result. -/
theorem c7_witness :
    ((0 : Nat) < ([exDF] : Heap).length) ∧
      (([exDF, exCmpG, exCmpH, exResult] : Heap)[0]? = ([exDF] : Heap)[0]? ∧
        ([exDF] : Heap).length ≤ 3 ∧ (3 : Nat) ≠ 0) :=
  ⟨by decide,
    c7_input_not_mutated (by decide)
      (show assign_replicates_heap [exDF] 0 ["g", "h"] =
        .ok ([exDF, exCmpG, exCmpH, exResult], 3) from rfl)⟩

/-! ### Helper lemmas: the Distribution Comparator -/

theorem pvar_pos {c : List ℝ} (hnc : ∃ a ∈ c, ∃ b ∈ c, a ≠ b) : 0 < pvar c := by
  obtain ⟨a, ha, b, hb, hab⟩ := hnc
  have hne : c ≠ [] := by
    rintro rfl
    cases ha
  have hlen : 0 < (c.length : ℝ) := by
    have : 0 < c.length := List.length_pos.mpr hne
    exact_mod_cast this
  have hdev : ∃ x ∈ c, x ≠ lmean c := by
    by_cases hma : a = lmean c
    · refine ⟨b, hb, fun hbm => hab ?_⟩
      rw [hma, hbm]
    · exact ⟨a, ha, hma⟩
  obtain ⟨x, hx, hxm⟩ := hdev
  unfold pvar
  apply div_pos ?_ hlen
  have hterm : (x - lmean c) ^ 2 ∈ c.map (fun y => (y - lmean c) ^ 2) :=
    List.mem_map_of_mem _ hx
  have hpos : 0 < (x - lmean c) ^ 2 :=
    pow_two_pos_of_ne_zero (sub_ne_zero.mpr hxm)
  have hnonneg : ∀ y ∈ c.map (fun y => (y - lmean c) ^ 2), 0 ≤ y := by
    intro y hy
    obtain ⟨z, hz, rfl⟩ := List.mem_map.mp hy
    exact sq_nonneg _
  calc (0 : ℝ) < (x - lmean c) ^ 2 := hpos
    _ ≤ (c.map (fun y => (y - lmean c) ^ 2)).sum :=
        List.single_le_sum hnonneg _ hterm

theorem pstd_pos {c : List ℝ} (hnc : ∃ a ∈ c, ∃ b ∈ c, a ≠ b) : 0 < pstd c :=
  Real.sqrt_pos.mpr (pvar_pos hnc)

theorem handleZeros_pstd {c : List ℝ} (hnc : ∃ a ∈ c, ∃ b ∈ c, a ≠ b) :
    handleZeros (pstd c) = pstd c := by
  unfold handleZeros
  rw [if_neg (ne_of_gt (pstd_pos hnc))]

theorem scalerTransform_spec {control : List ℝ} (hnc : ∃ a ∈ control, ∃ b ∈ control, a ≠ b)
    (target : List ℝ) :
    scalerTransform ⟨lmean control, handleZeros (pstd control)⟩ target =
      target.map (zscoreSpec control) := by
  unfold scalerTransform zscoreSpec
  apply List.map_congr_left
  intro x _
  rw [show (ScalerState.mk (lmean control) (handleZeros (pstd control))).scale_ =
    handleZeros (pstd control) from rfl]
  rw [handleZeros_pstd hnc]

theorem compare_zscore_eq {supM supS : List String} {target control : List ℝ}
    (hm : "zscore" ∈ supM) {rsm : String} (hs : rsm ∈ supS) (hcne : control ≠ []) :
    compare_distributions supM supS target control "zscore" rsm =
      (if rsm = "mean" then
        .ok (.scalar (lmean (scalerTransform ⟨lmean control, handleZeros (pstd control)⟩ target)))
      else if rsm = "median" then
        .ok (.scalar (npMedian (scalerTransform ⟨lmean control, handleZeros (pstd control)⟩ target)))
      else .ok (.arr (scalerTransform ⟨lmean control, handleZeros (pstd control)⟩ target))) := by
  have hc1 : check_compare_distribution_method supM "zscore" = .ok () := by
    unfold check_compare_distribution_method
    rw [if_pos hm]
  have hc2 : check_replicate_summary_method supS rsm = .ok () := by
    unfold check_replicate_summary_method
    rw [if_pos hs]
  have hfit : scalerFit control = .ok ⟨lmean control, handleZeros (pstd control)⟩ := by
    unfold scalerFit
    rw [if_neg hcne]
  unfold compare_distributions
  simp only [hc1, hc2, hfit, if_pos (rfl : ("zscore" : String) = "zscore"), if_true]

/-! ### Claim theorems: the Distribution Comparator -/

/-- C5: for every non-empty, non-constant control sample and every target,
`compare_distributions` with `method="zscore"` returns the chosen summary —
arithmetic mean for `"mean"`, median for `"median"` — of the per-element
scores `(t - mean(control)) / std(control)` over the target, exactly as the
spec words the z-score. -/
theorem c5_zscore_summary {supM supS : List String} {target control : List ℝ}
    (hm : "zscore" ∈ supM) (hcne : control ≠ [])
    (hnc : ∃ a ∈ control, ∃ b ∈ control, a ≠ b) :
    ("mean" ∈ supS →
      compare_distributions supM supS target control "zscore" "mean" =
        .ok (.scalar (lmean (target.map (zscoreSpec control))))) ∧
    ("median" ∈ supS →
      compare_distributions supM supS target control "zscore" "median" =
        .ok (.scalar (npMedian (target.map (zscoreSpec control))))) := by
  constructor
  · intro hs
    rw [compare_zscore_eq hm hs hcne]
    rw [if_pos rfl, scalerTransform_spec hnc]
  · intro hs
    rw [compare_zscore_eq hm hs hcne]
    rw [if_neg (by decide : ¬("median" : String) = "mean"), if_pos rfl,
      scalerTransform_spec hnc]

/-- Witness for C5: the spec's concrete example — control `[1,2,3,4,5]`
(mean 3), target `[3]`, summary `"mean"` — produces the z-score of 3 against
the fitted mean and scale, namely 0. -/
theorem c5_witness :
    (("zscore" : String) ∈ (["zscore"] : List String)) ∧
      (([1, 2, 3, 4, 5] : List ℝ) ≠ []) ∧
      (∃ a ∈ ([1, 2, 3, 4, 5] : List ℝ), ∃ b ∈ ([1, 2, 3, 4, 5] : List ℝ), a ≠ b) ∧
      (("mean" : String) ∈ (["mean", "median"] : List String)) ∧
      compare_distributions ["zscore"] ["mean", "median"] [3] [1, 2, 3, 4, 5]
        "zscore" "mean" = .ok (.scalar 0) := by
  have hnc : ∃ a ∈ ([1, 2, 3, 4, 5] : List ℝ), ∃ b ∈ ([1, 2, 3, 4, 5] : List ℝ), a ≠ b :=
    ⟨1, by simp, 2, by simp, by norm_num⟩
  refine ⟨by decide, by simp, hnc, by decide, ?_⟩
  have h : compare_distributions ["zscore"] ["mean", "median"] [3] [1, 2, 3, 4, 5]
      "zscore" "mean" =
      .ok (.scalar (lmean (([3] : List ℝ).map (zscoreSpec [1, 2, 3, 4, 5])))) :=
    (c5_zscore_summary (by decide) (by simp) hnc).1 (by decide)
  rw [h]
  have hmean : lmean [1, 2, 3, 4, 5] = 3 := by
    unfold lmean
    norm_num
  have hz : zscoreSpec [1, 2, 3, 4, 5] 3 = 0 := by
    unfold zscoreSpec
    rw [hmean]
    norm_num
  have hmap : ([3] : List ℝ).map (zscoreSpec [1, 2, 3, 4, 5]) = [0] := by
    rw [List.map_cons, List.map_nil, hz]
  rw [hmap]
  have hm0 : lmean [0] = 0 := by
    unfold lmean
    norm_num
  rw [hm0]

/-- C6: an unsupported `method` fails with the method `UnsupportedMethodError`
regardless of the samples (so before any standardization or reduction — the
outcome is the same even for degenerate inputs), and with a supported `method`
an unsupported `replicate_summary_method` fails with its own
`UnsupportedMethodError`; the two arguments are validated independently. -/
theorem c6_validation (supM supS : List String) (target control : List ℝ)
    (method rsm : String) :
    (method ∉ supM →
      compare_distributions supM supS target control method rsm =
        .error (.unsupportedMethod method)) ∧
    (method ∈ supM → rsm ∉ supS →
      compare_distributions supM supS target control method rsm =
        .error (.unsupportedSummary rsm)) := by
  constructor
  · intro hm
    unfold compare_distributions check_compare_distribution_method
    rw [if_neg hm]
  · intro hm hs
    unfold compare_distributions check_compare_distribution_method
      check_replicate_summary_method
    rw [if_pos hm, if_neg hs]

/-- Witness for C6 with the spec-modelled enumerations (`["zscore"]` for
methods, `["mean", "median"]` for summaries) and the spec's example name
`"bogus"`, on empty samples — demonstrating the error precedes any
computation. -/
theorem c6_witness :
    (("bogus" : String) ∉ (["zscore"] : List String)) ∧
      compare_distributions ["zscore"] ["mean", "median"] [] [] "bogus" "mean" =
        .error (.unsupportedMethod "bogus") ∧
      (("zscore" : String) ∈ (["zscore"] : List String)) ∧
      (("bogus" : String) ∉ (["mean", "median"] : List String)) ∧
      compare_distributions ["zscore"] ["mean", "median"] [] [] "zscore" "bogus" =
        .error (.unsupportedSummary "bogus") :=
  ⟨by decide,
   (c6_validation ["zscore"] ["mean", "median"] [] [] "bogus" "mean").1 (by decide),
   by decide, by decide,
   (c6_validation ["zscore"] ["mean", "median"] [] [] "zscore" "bogus").2
     (by decide) (by decide)⟩

/-- C10: for any validated method other than `"zscore"` the local `scores` is
never assigned, so `return scores` fails with `UnboundLocalError` instead of
returning a scalar; and for `method="zscore"` with a validated summary other
than `"mean"` or `"median"`, the function returns the full array of
per-element standardized scores rather than a single scalar. -/
theorem c10_dispatch (supM supS : List String) (target control : List ℝ) :
    (∀ method ∈ supM, method ≠ "zscore" → ∀ rsm ∈ supS,
      compare_distributions supM supS target control method rsm =
        .error .unboundLocal) ∧
    (∀ rsm ∈ supS, rsm ≠ "mean" → rsm ≠ "median" → "zscore" ∈ supM → control ≠ [] →
      compare_distributions supM supS target control "zscore" rsm =
        .ok (.arr (scalerTransform ⟨lmean control, handleZeros (pstd control)⟩ target))) := by
  constructor
  · intro method hm hz rsm hs
    have hc1 : check_compare_distribution_method supM method = .ok () := by
      unfold check_compare_distribution_method
      rw [if_pos hm]
    have hc2 : check_replicate_summary_method supS rsm = .ok () := by
      unfold check_replicate_summary_method
      rw [if_pos hs]
    unfold compare_distributions
    simp only [hc1, hc2, if_neg hz]
  · intro rsm hs hsm hsmed hm hcne
    rw [compare_zscore_eq hm hs hcne]
    rw [if_neg hsm, if_neg hsmed]

/-- Witness for C10: with an extended method enumeration `["zscore", "rank"]`
the validated method `"rank"` hits the unassigned-`scores` failure, and with an
extended summary enumeration the validated summary `"max"` returns the whole
score array. -/
theorem c10_witness :
    ((("rank" : String) ∈ (["zscore", "rank"] : List String)) ∧
      (("rank" : String) ≠ "zscore") ∧
      (("mean" : String) ∈ (["mean"] : List String)) ∧
      compare_distributions ["zscore", "rank"] ["mean"] [] [] "rank" "mean" =
        .error CdError.unboundLocal) ∧
    ((("max" : String) ∈ (["mean", "median", "max"] : List String)) ∧
      (("max" : String) ≠ "mean") ∧ (("max" : String) ≠ "median") ∧
      (("zscore" : String) ∈ (["zscore"] : List String)) ∧
      (([1, 2] : List ℝ) ≠ []) ∧
      compare_distributions ["zscore"] ["mean", "median", "max"] [5] [1, 2]
        "zscore" "max" =
        .ok (.arr (scalerTransform ⟨lmean [1, 2], handleZeros (pstd [1, 2])⟩ [5]))) :=
  ⟨⟨by decide, by decide, by decide,
    (c10_dispatch ["zscore", "rank"] ["mean"] [] []).1 "rank" (by decide) (by decide)
      "mean" (by decide)⟩,
   ⟨by decide, by decide, by decide, by decide, by simp,
    (c10_dispatch ["zscore"] ["mean", "median", "max"] [5] [1, 2]).2 "max"
      (by decide) (by decide) (by decide) (by decide) (by simp)⟩⟩
